import Mathlib

/-!
Verification of the coffee-bean / particle measurement pipeline
(`test_bean_cv.py`, `test_cv.py`).

The pipeline's numeric code is embedded over the rationals: every float
literal of the source is an exact decimal, and the float means sampled from
images become arbitrary rationals.  External library primitives (OpenCV's
marker detector, `getPerspectiveTransform`, `fitEllipse`, `np.sqrt`, the
connected-component extractor) are parameters of the embedded stages; the
repository's own control flow and arithmetic are transcribed directly.
-/

namespace CoffeeCV

/-! ## Numeric helpers -/

/-- Truncation toward zero, as Python `int(...)` and the C cast used by
`np.ndarray.astype` perform on a nonnegative or negative value. -/
def trunc (q : ℚ) : ℤ := if 0 ≤ q then ⌊q⌋ else -⌊-q⌋

/-- Conversion of a float to `np.uint8` (`astype(np.uint8)`): truncation
toward zero followed by wrap-around modulo 256. -/
def toU8 (q : ℚ) : ℤ := trunc q % 256

/-- `np.clip(val, lo, hi)`. -/
def clip (val lo hi : ℚ) : ℚ := max lo (min val hi)

theorem trunc_of_nonneg {q : ℚ} (h : 0 ≤ q) : trunc q = ⌊q⌋ := by
  simp [trunc, h]

theorem toU8_nonneg (q : ℚ) : 0 ≤ toU8 q :=
  Int.emod_nonneg _ (by norm_num)

theorem toU8_le (q : ℚ) : toU8 q ≤ 255 := by
  have h := Int.emod_lt_of_pos (trunc q) (show (0:ℤ) < 256 by norm_num)
  rw [toU8]
  omega

theorem toU8_of_mem_Icc {q : ℚ} (h0 : 0 ≤ q) (h1 : q ≤ 255) : toU8 q = ⌊q⌋ := by
  have hf0 : (0 : ℤ) ≤ ⌊q⌋ := Int.floor_nonneg.mpr h0
  have hf1 : ⌊q⌋ ≤ 255 := by
    have := Int.floor_le_floor (α := ℚ) h1
    simpa using this
  rw [toU8, trunc_of_nonneg h0]
  omega

/-! ## Piecewise-linear interpolation (`np.interp`) and `build_lut`

`build_lut(observed, expected)` sorts the zipped pairs by observed value and
evaluates `np.interp` at each of the 256 raw intensities, casting the result
to `uint8`.  `np_interp x ps` is the value of `np.interp` at `x` for the
already-sorted pair list `ps`: inputs left of the first sample clamp to its
expected value, inputs right of the last sample clamp to its expected value,
and interior inputs interpolate linearly inside the first window that
contains them (which reproduces numpy's tie handling for duplicate sample
positions).
-/

def np_interp (x : ℚ) : List (ℚ × ℚ) → ℚ
  | [] => 0
  | [p] => p.2
  | p :: q :: t =>
    if x < p.1 then p.2
    else if x < q.1 then p.2 + (q.2 - p.2) * (x - p.1) / (q.1 - p.1)
    else np_interp x (q :: t)

/-- Ordering of sample pairs by observed value (the `key=lambda x: x[0]`
of the Python `sorted` call). -/
def pairFstLe (p q : ℚ × ℚ) : Prop := p.1 ≤ q.1

/-- Non-decreasing expected values along the sorted samples. -/
def pairSndLe (p q : ℚ × ℚ) : Prop := p.2 ≤ q.2

instance : DecidableRel pairFstLe := fun p q => inferInstanceAs (Decidable (p.1 ≤ q.1))

instance : DecidableRel pairSndLe := fun p q => inferInstanceAs (Decidable (p.2 ≤ q.2))

instance : IsTotal (ℚ × ℚ) pairFstLe := ⟨fun p q => le_total p.1 q.1⟩

instance : IsTrans (ℚ × ℚ) pairFstLe := ⟨fun _ _ _ h h' => le_trans h h'⟩

/-- The sorted `(observed, expected)` pair list of `build_lut`. -/
def sortPairs (observed expected : List ℚ) : List (ℚ × ℚ) :=
  List.insertionSort pairFstLe (observed.zip expected)

/-- The 256-entry calibration curve, viewed as the value of the table at a
raw intensity index (`np.interp(np.arange(256), ...).astype(np.uint8)`).
Only indices 0..255 correspond to entries of the real table. -/
def build_lut (observed expected : List ℚ) (i : ℕ) : ℤ :=
  toU8 (np_interp i (sortPairs observed expected))

/-- `apply_lut(val, lut)`: clip to [0,255], truncate to an integer index,
look up. -/
def apply_lut (val : ℚ) (lut : ℕ → ℤ) : ℤ :=
  lut (Int.toNat (trunc (clip val 0 255)))

/-- The expected grayscale targets `EXPECTED_LEVELS`:
`int(255 - (i * (255 - 20) / 10))` for `i = 0..10`. -/
def EXPECTED_LEVELS : List ℕ :=
  (List.range 11).map (fun i => Int.toNat (trunc (255 - i * ((255 - 20) / 10 : ℚ))))

/-! ### Branch equations for `np_interp` -/

theorem np_interp_nil (x : ℚ) : np_interp x [] = 0 := rfl

theorem np_interp_singleton (x : ℚ) (p : ℚ × ℚ) : np_interp x [p] = p.2 := rfl

theorem np_interp_lt {x : ℚ} {p q : ℚ × ℚ} {t : List (ℚ × ℚ)} (h : x < p.1) :
    np_interp x (p :: q :: t) = p.2 := by
  simp [np_interp, h]

theorem np_interp_mid {x : ℚ} {p q : ℚ × ℚ} {t : List (ℚ × ℚ)}
    (h1 : ¬ x < p.1) (h2 : x < q.1) :
    np_interp x (p :: q :: t) = p.2 + (q.2 - p.2) * (x - p.1) / (q.1 - p.1) := by
  simp [np_interp, h1, h2]

theorem np_interp_skip {x : ℚ} {p q : ℚ × ℚ} {t : List (ℚ × ℚ)}
    (h1 : ¬ x < p.1) (h2 : ¬ x < q.1) :
    np_interp x (p :: q :: t) = np_interp x (q :: t) := by
  simp [np_interp, h1, h2]

/-! ### Bounds and monotonicity of `np_interp` -/

theorem interp_ge_of {A : ℚ} :
    ∀ (t : List (ℚ × ℚ)) (p : ℚ × ℚ), (∀ r ∈ p :: t, A ≤ r.2) →
      ∀ x : ℚ, A ≤ np_interp x (p :: t) := by
  intro t
  induction t with
  | nil =>
    intro p hA x
    rw [np_interp_singleton]
    exact hA p (List.mem_cons_self p _)
  | cons q t ih =>
    intro p hA x
    have hAp : A ≤ p.2 := hA p (List.mem_cons_self _ _)
    have hAq : A ≤ q.2 := hA q (List.mem_cons_of_mem _ (List.mem_cons_self _ _))
    by_cases hx1 : x < p.1
    · rw [np_interp_lt hx1]; exact hAp
    · by_cases hx2 : x < q.1
      · rw [np_interp_mid hx1 hx2]
        have hpx : p.1 ≤ x := le_of_not_lt hx1
        have hd : 0 < q.1 - p.1 := by linarith
        have hr0 : 0 ≤ (x - p.1) / (q.1 - p.1) := div_nonneg (by linarith) (le_of_lt hd)
        have hr1 : (x - p.1) / (q.1 - p.1) ≤ 1 := by
          rw [div_le_one hd]; linarith
        rw [mul_div_assoc]
        nlinarith [mul_nonneg (sub_nonneg.mpr hAq) hr0,
                   mul_nonneg (sub_nonneg.mpr hAp) (sub_nonneg.mpr hr1)]
      · rw [np_interp_skip hx1 hx2]
        exact ih q (fun r hr => hA r (List.mem_cons_of_mem _ hr)) x

theorem interp_le_of {B : ℚ} :
    ∀ (t : List (ℚ × ℚ)) (p : ℚ × ℚ), (∀ r ∈ p :: t, r.2 ≤ B) →
      ∀ x : ℚ, np_interp x (p :: t) ≤ B := by
  intro t
  induction t with
  | nil =>
    intro p hB x
    rw [np_interp_singleton]
    exact hB p (List.mem_cons_self p _)
  | cons q t ih =>
    intro p hB x
    have hBp : p.2 ≤ B := hB p (List.mem_cons_self _ _)
    have hBq : q.2 ≤ B := hB q (List.mem_cons_of_mem _ (List.mem_cons_self _ _))
    by_cases hx1 : x < p.1
    · rw [np_interp_lt hx1]; exact hBp
    · by_cases hx2 : x < q.1
      · rw [np_interp_mid hx1 hx2]
        have hpx : p.1 ≤ x := le_of_not_lt hx1
        have hd : 0 < q.1 - p.1 := by linarith
        have hr0 : 0 ≤ (x - p.1) / (q.1 - p.1) := div_nonneg (by linarith) (le_of_lt hd)
        have hr1 : (x - p.1) / (q.1 - p.1) ≤ 1 := by
          rw [div_le_one hd]; linarith
        rw [mul_div_assoc]
        nlinarith [mul_nonneg (sub_nonneg.mpr hBq) hr0,
                   mul_nonneg (sub_nonneg.mpr hBp) (sub_nonneg.mpr hr1)]
      · rw [np_interp_skip hx1 hx2]
        exact ih q (fun r hr => hB r (List.mem_cons_of_mem _ hr)) x

theorem interp_ge_head :
    ∀ (t : List (ℚ × ℚ)) (p : ℚ × ℚ),
      (p :: t).Pairwise pairSndLe → ∀ x : ℚ, p.2 ≤ np_interp x (p :: t) := by
  intro t p h2 x
  refine interp_ge_of t p ?_ x
  intro r hr
  rcases List.mem_cons.mp hr with h | h
  · rw [h]
  · exact List.rel_of_pairwise_cons h2 h

theorem interp_mono :
    ∀ (ps : List (ℚ × ℚ)), ps.Pairwise pairFstLe → ps.Pairwise pairSndLe →
      ∀ x x' : ℚ, x ≤ x' → np_interp x ps ≤ np_interp x' ps := by
  intro ps
  induction ps with
  | nil => intro _ _ x x' _; simp [np_interp_nil]
  | cons p t ih =>
    cases t with
    | nil => intro _ _ x x' _; simp [np_interp_singleton]
    | cons q t' =>
      intro h1 h2 x x' hxx
      have hpq1 : p.1 ≤ q.1 := List.rel_of_pairwise_cons h1 (List.mem_cons_self _ _)
      have hpq2 : p.2 ≤ q.2 := List.rel_of_pairwise_cons h2 (List.mem_cons_self _ _)
      by_cases hx1 : x < p.1
      · rw [np_interp_lt hx1]
        exact interp_ge_head _ p h2 x'
      · by_cases hx2 : x < q.1
        · have hpx : p.1 ≤ x := le_of_not_lt hx1
          have hd : 0 < q.1 - p.1 := by linarith
          have hdinv : 0 ≤ (q.1 - p.1)⁻¹ := inv_nonneg.mpr (le_of_lt hd)
          rw [np_interp_mid hx1 hx2]
          by_cases hx'2 : x' < q.1
          · have hx'1 : ¬ x' < p.1 := not_lt.mpr (le_trans hpx hxx)
            rw [np_interp_mid hx'1 hx'2, div_eq_mul_inv, div_eq_mul_inv]
            nlinarith [mul_nonneg (mul_nonneg (sub_nonneg.mpr hpq2) hdinv)
              (sub_nonneg.mpr hxx)]
          · -- the left value stays below q.2, the right value above it
            have hL : p.2 + (q.2 - p.2) * (x - p.1) / (q.1 - p.1) ≤ q.2 := by
              have hr1 : (x - p.1) / (q.1 - p.1) ≤ 1 := by
                rw [div_le_one hd]; linarith
              have := mul_le_of_le_one_right (sub_nonneg.mpr hpq2) hr1
              rw [mul_div_assoc]
              linarith
            have hR : q.2 ≤ np_interp x' (q :: t') := interp_ge_head _ q h2.of_cons x'
            have hx'1 : ¬ x' < p.1 := not_lt.mpr (le_trans hpx hxx)
            rw [np_interp_skip hx'1 hx'2]
            linarith
        · have hqx : q.1 ≤ x := le_of_not_lt hx2
          have hx'1 : ¬ x' < p.1 := not_lt.mpr (le_trans hpq1 (le_trans hqx hxx))
          have hx'2 : ¬ x' < q.1 := not_lt.mpr (le_trans hqx hxx)
          rw [np_interp_skip hx1 hx2, np_interp_skip hx'1 hx'2]
          exact ih h1.of_cons h2.of_cons x x' hxx

/-- On a list of diagonal pairs (observed equal to expected), `np_interp`
is the identity at every sampled value. -/
theorem interp_diag :
    ∀ (t : List (ℚ × ℚ)) (p : ℚ × ℚ), (p :: t).Pairwise pairFstLe →
      (∀ r ∈ p :: t, r.2 = r.1) → ∀ x : ℚ, (x, x) ∈ p :: t →
      np_interp x (p :: t) = x := by
  intro t
  induction t with
  | nil =>
    intro p _ _ x hmem
    rcases List.mem_cons.mp hmem with h | h
    · rw [np_interp_singleton, ← h]
    · simp at h
  | cons q t' ih =>
    intro p h1 hdiag x hmem
    have hp2 : p.2 = p.1 := hdiag p (List.mem_cons_self _ _)
    have hq2 : q.2 = q.1 := hdiag q (List.mem_cons_of_mem _ (List.mem_cons_self _ _))
    have hpq1 : p.1 ≤ q.1 := List.rel_of_pairwise_cons h1 (List.mem_cons_self _ _)
    have hpx : p.1 ≤ x := by
      rcases List.mem_cons.mp hmem with h | h
      · rw [← h]
      · exact List.rel_of_pairwise_cons h1 h
    by_cases hx1 : x < p.1
    · exact absurd hpx (not_le.mpr hx1)
    · by_cases hx2 : x < q.1
      · rw [np_interp_mid hx1 hx2, hp2, hq2]
        have hd : q.1 - p.1 ≠ 0 := by
          have : 0 < q.1 - p.1 := by linarith
          linarith
        field_simp
      · rw [np_interp_skip hx1 hx2]
        have hqx : q.1 ≤ x := le_of_not_lt hx2
        have hmem' : (x, x) ∈ q :: t' := by
          rcases List.mem_cons.mp hmem with h | h
          · -- the head is the pair (x, x); then q.1 = x as well and q = (x, x)
            have hp1x : p.1 = x := by rw [← h]
            have hq1x : q.1 = x := le_antisymm hqx (hp1x ▸ hpq1)
            have hqxx : (x, x) = q := by
              calc (x, x) = (q.1, q.2) := by rw [hq1x, hq2.trans hq1x]
              _ = q := rfl
            exact hqxx ▸ List.mem_cons_self q t'
          · exact h
        exact ih q h1.of_cons (fun r hr => hdiag r (List.mem_cons_of_mem _ hr)) x hmem'

/-! ### Properties of the sorted sample list -/

theorem sortPairs_pairwise_fst (observed expected : List ℚ) :
    (sortPairs observed expected).Pairwise pairFstLe :=
  List.sorted_insertionSort pairFstLe _

theorem mem_sortPairs {r : ℚ × ℚ} {observed expected : List ℚ} :
    r ∈ sortPairs observed expected ↔ r ∈ observed.zip expected :=
  (List.perm_insertionSort pairFstLe _).mem_iff

theorem zip_self_eq_map (l : List ℚ) : l.zip l = l.map (fun a => (a, a)) := by
  induction l with
  | nil => rfl
  | cons a l ih => simp [List.zip_cons_cons, ih]

theorem EXPECTED_LEVELS_eq :
    EXPECTED_LEVELS = [255, 231, 208, 184, 161, 137, 114, 90, 67, 43, 20] := by
  norm_num [EXPECTED_LEVELS, List.range_succ, trunc]
  decide

/-- The pipeline's grayscale targets as rational observations (the value of
`EXPECTED_LEVELS`, see `EXPECTED_LEVELS_eq`). -/
def levelsQ : List ℚ := [255, 231, 208, 184, 161, 137, 114, 90, 67, 43, 20]

/-! ## Claim C1: monotonicity of the calibration curve -/

/-- C1 (corrected): the 256-entry curve built by `build_lut` is monotone
non-decreasing in the raw index whenever the expected values, paired up with
the observed values and sorted by observed value, are non-decreasing and lie
in the byte range — which is the situation of the pipeline's ramp, whose
lighter patches have both larger observed means and larger expected targets.
For arbitrary pairs the curve need not be monotone (see the
counterexample). -/
theorem C1_lut_monotone (observed expected : List ℚ)
    (hmono : (sortPairs observed expected).Pairwise pairSndLe)
    (hrange : ∀ r ∈ sortPairs observed expected, 0 ≤ r.2 ∧ r.2 ≤ 255) :
    ∀ i j : ℕ, i ≤ j → build_lut observed expected i ≤ build_lut observed expected j := by
  intro i j hij
  unfold build_lut
  have h1 := sortPairs_pairwise_fst observed expected
  cases hps : sortPairs observed expected with
  | nil => simp [np_interp_nil]
  | cons p t =>
    rw [hps] at h1 hmono hrange
    have hcast : (i : ℚ) ≤ (j : ℚ) := by exact_mod_cast hij
    have hmi := interp_mono _ h1 hmono (i : ℚ) (j : ℚ) hcast
    have hge : (0 : ℚ) ≤ np_interp i (p :: t) :=
      interp_ge_of t p (fun r hr => (hrange r hr).1) i
    have hle : np_interp j (p :: t) ≤ 255 :=
      interp_le_of t p (fun r hr => (hrange r hr).2) j
    rw [toU8_of_mem_Icc hge (le_trans hmi hle),
        toU8_of_mem_Icc (le_trans hge hmi) hle]
    exact Int.floor_le_floor hmi

/-- C1 witness: the pipeline's own grayscale targets, used as both observed
and expected values, satisfy the monotone-compatibility hypothesis, and the
resulting curve is monotone between two sample indices. -/
theorem C1_lut_monotone_witness :
    ((sortPairs levelsQ levelsQ).Pairwise pairSndLe ∧
      ∀ r ∈ sortPairs levelsQ levelsQ, 0 ≤ r.2 ∧ r.2 ≤ 255) ∧
    build_lut levelsQ levelsQ 10 ≤ build_lut levelsQ levelsQ 200 := by
  have hsorted : sortPairs levelsQ levelsQ =
      [(20, 20), (43, 43), (67, 67), (90, 90), (114, 114), (137, 137),
       (161, 161), (184, 184), (208, 208), (231, 231), (255, 255)] := by
    norm_num [levelsQ, sortPairs, List.insertionSort, List.orderedInsert, pairFstLe]
  have hmono : (sortPairs levelsQ levelsQ).Pairwise pairSndLe := by
    rw [hsorted]
    norm_num [pairSndLe]
  have hrange : ∀ r ∈ sortPairs levelsQ levelsQ, 0 ≤ r.2 ∧ r.2 ≤ 255 := by
    rw [hsorted]
    norm_num
  exact ⟨⟨hmono, hrange⟩, C1_lut_monotone levelsQ levelsQ hmono hrange 10 200 (by norm_num)⟩

/-- C1 counterexample: with observed values [0, 255] paired to expected
values [255, 0], the built curve maps index 0 to 255 and index 255 to 0, so
it is not monotone non-decreasing; the claim fails for this list of
(observed, expected) pairs. -/
theorem C1_lut_not_monotone_counterexample :
    ¬ (∀ i j : ℕ, i ≤ j → j ≤ 255 →
        build_lut [0, 255] [255, 0] i ≤ build_lut [0, 255] [255, 0] j) := by
  intro h
  have h2 := h 0 255 (by norm_num) (le_refl 255)
  have e0 : build_lut [0, 255] [255, 0] 0 = 255 := by
    norm_num [build_lut, sortPairs, List.insertionSort, List.orderedInsert,
      pairFstLe, np_interp, toU8, trunc]
  have e255 : build_lut [0, 255] [255, 0] 255 = 0 := by
    norm_num [build_lut, sortPairs, List.insertionSort, List.orderedInsert,
      pairFstLe, np_interp, toU8, trunc]
  rw [e0, e255] at h2
  norm_num at h2

/-! ## Claim C9: identity of the curve on an exact ramp -/

/-- C9 (confirmed): when the observed sample values exactly equal the
expected target values (all within the byte range), the curve built by
`build_lut` maps each sampled value to itself — exactly, with no rounding
error. -/
theorem C9_lut_identity (vs : List ℕ) (hle : ∀ v ∈ vs, v ≤ 255) :
    ∀ v ∈ vs,
      build_lut (vs.map (fun n => (n : ℚ))) (vs.map (fun n => (n : ℚ))) v = (v : ℤ) := by
  intro v hv
  unfold build_lut
  have hzip : (vs.map (fun n => (n : ℚ))).zip (vs.map (fun n => (n : ℚ)))
      = (vs.map (fun n => (n : ℚ))).map (fun a => (a, a)) :=
    zip_self_eq_map _
  have hmem : ((v : ℚ), (v : ℚ)) ∈ sortPairs (vs.map (fun n => (n : ℚ))) (vs.map (fun n => (n : ℚ))) := by
    rw [mem_sortPairs, hzip]
    simpa using hv
  have hdiag : ∀ r ∈ sortPairs (vs.map (fun n => (n : ℚ))) (vs.map (fun n => (n : ℚ))), r.2 = r.1 := by
    intro r hr
    rw [mem_sortPairs, hzip] at hr
    obtain ⟨a, _, rfl⟩ := List.mem_map.mp hr
    rfl
  have h1 := sortPairs_pairwise_fst (vs.map (fun n => (n : ℚ))) (vs.map (fun n => (n : ℚ)))
  cases hps : sortPairs (vs.map (fun n => (n : ℚ))) (vs.map (fun n => (n : ℚ))) with
  | nil =>
    rw [hps] at hmem
    simp at hmem
  | cons p t =>
    rw [hps] at hmem hdiag h1
    rw [interp_diag t p h1 hdiag (v : ℚ) hmem]
    rw [toU8_of_mem_Icc (by positivity) (by exact_mod_cast hle v hv)]
    simp

/-- C9 witness: the pipeline's grayscale targets as an exact ramp; the curve
is the identity at the sampled value 255. -/
theorem C9_lut_identity_witness :
    (∀ v ∈ EXPECTED_LEVELS, v ≤ 255) ∧
    build_lut (EXPECTED_LEVELS.map (fun n => (n : ℚ)))
      (EXPECTED_LEVELS.map (fun n => (n : ℚ))) 255 = 255 := by
  have hle : ∀ v ∈ EXPECTED_LEVELS, v ≤ 255 := by
    rw [EXPECTED_LEVELS_eq]; decide
  have hmem : 255 ∈ EXPECTED_LEVELS := by
    rw [EXPECTED_LEVELS_eq]; decide
  exact ⟨hle, C9_lut_identity EXPECTED_LEVELS hle 255 hmem⟩

/-! ## Marker detection stage

A detection is a pair of a marker id and its 4 corners (`corners[i][0][k]`,
in the marker's own top-left, top-right, bottom-right, bottom-left order).
The corner coordinate type is a parameter: the detector itself is an OpenCV
primitive, the repository code only routes its output.
-/

structure Corners (α : Type) where
  c0 : α
  c1 : α
  c2 : α
  c3 : α
deriving DecidableEq

/-- The 4 source points selected for the homography (`src_pts`). -/
structure SrcPts (α : Type) where
  tl : α
  tr : α
  br : α
  bl : α
deriving DecidableEq

/-- The required marker ids `[0, 1, 2, 3]`. -/
def requiredIds : List ℕ := [0, 1, 2, 3]

/-- Python dict assignment `m[k] = v`: replaces the entry if the key is
present, appends otherwise. -/
def dictSet {α : Type} : List (ℕ × α) → ℕ → α → List (ℕ × α)
  | [], k, v => [(k, v)]
  | (k', v') :: t, k, v => if k' = k then (k, v) :: t else (k', v') :: dictSet t k v

/-- Python dict lookup `m[k]` (as an option). -/
def dictGet {α : Type} : List (ℕ × α) → ℕ → Option α
  | [], _ => none
  | (k', v') :: t, k => if k' = k then some v' else dictGet t k

/-- One iteration of the `found_map` loop: a detection with a required id is
written into the dict (`found_map[id_val] = corners[i]`), any other
detection is skipped. -/
def foundStep {α : Type} (m : List (ℕ × Corners α)) (d : ℕ × Corners α) :
    List (ℕ × Corners α) :=
  if d.1 ∈ requiredIds then dictSet m d.1 d.2 else m

/-- The `found_map` built by `process_image` from the detection list. -/
def buildFoundMap {α : Type} (dets : List (ℕ × Corners α)) : List (ℕ × Corners α) :=
  dets.foldl foundStep []

/-- The corners of the last detection carrying the given id. -/
def lastDetection {α : Type} (dets : List (ℕ × Corners α)) (i : ℕ) :
    Option (Corners α) :=
  ((dets.filter (fun d => d.1 == i)).getLast?).map Prod.snd

/-- The error values with which the marker stage aborts: too few detections
overall (`"Found only {n} markers. Need 4."`) or missing required ids
(`"Missing some required IDs (0-3). Found: {...}"`). -/
inductive InsufficientMarkersError where
  | tooFewMarkers (count : ℕ)
  | missingRequiredIds (found : List ℕ)
deriving DecidableEq

/-- The marker-detection stage of `process_image`: fail if fewer than 4
detections, build `found_map` over the required ids, fail if a required id
is missing, otherwise select the four outer corners
(`found_map[0][0][0]`, `found_map[1][0][1]`, `found_map[2][0][2]`,
`found_map[3][0][3]`). -/
def markerStage {α : Type} (dets : List (ℕ × Corners α)) :
    Except InsufficientMarkersError (SrcPts α) :=
  if dets.length < 4 then Except.error (.tooFewMarkers dets.length)
  else
    let fm := buildFoundMap dets
    if fm.length < 4 then Except.error (.missingRequiredIds (fm.map Prod.fst))
    else
      match dictGet fm 0, dictGet fm 1, dictGet fm 2, dictGet fm 3 with
      | some m0, some m1, some m2, some m3 => Except.ok ⟨m0.c0, m1.c1, m2.c2, m3.c3⟩
      | _, _, _, _ => Except.error (.missingRequiredIds (fm.map Prod.fst))

/-- The required ids actually present in the detection list. -/
def foundRequired {α : Type} (dets : List (ℕ × Corners α)) : List ℕ :=
  requiredIds.filter (fun i => dets.any (fun d => d.1 == i))

/-- The rest of the pipeline after the marker stage, abstracted as a
function producing the output table: on marker failure nothing downstream
runs and no table is produced. -/
def pipelineTable {α β : Type} (downstream : SrcPts α → List β)
    (dets : List (ℕ × Corners α)) : Except InsufficientMarkersError (List β) :=
  (markerStage dets).map downstream

/-! ### Dict lemmas -/

theorem dictGet_set_self {α : Type} :
    ∀ (m : List (ℕ × α)) (k : ℕ) (v : α), dictGet (dictSet m k v) k = some v := by
  intro m
  induction m with
  | nil => intro k v; simp [dictSet, dictGet]
  | cons p t ih =>
    intro k v
    obtain ⟨k', v'⟩ := p
    by_cases h : k' = k
    · simp [dictSet, h, dictGet]
    · simp only [dictSet, if_neg h, dictGet]
      exact ih k v

theorem dictGet_set_ne {α : Type} :
    ∀ (m : List (ℕ × α)) (k k' : ℕ) (v : α), k ≠ k' →
      dictGet (dictSet m k' v) k = dictGet m k := by
  intro m
  induction m with
  | nil =>
    intro k k' v h
    simp [dictSet, dictGet, Ne.symm h]
  | cons p t ih =>
    intro k k' v h
    obtain ⟨k0, v0⟩ := p
    by_cases h0 : k0 = k'
    · subst h0
      simp only [dictSet, if_pos rfl, dictGet]
      rw [if_neg (Ne.symm h), if_neg (Ne.symm h)]
    · simp only [dictSet, if_neg h0, dictGet]
      by_cases hk : k0 = k
      · rw [if_pos hk, if_pos hk]
      · rw [if_neg hk, if_neg hk]
        exact ih k k' v h

theorem mem_keys_dictSet {α : Type} :
    ∀ (m : List (ℕ × α)) (k j : ℕ) (v : α),
      (j ∈ (dictSet m k v).map Prod.fst ↔ j = k ∨ j ∈ m.map Prod.fst) := by
  intro m
  induction m with
  | nil => intro k j v; simp [dictSet]
  | cons p t ih =>
    intro k j v
    obtain ⟨k0, v0⟩ := p
    by_cases h0 : k0 = k
    · subst h0
      have hd : dictSet ((k0, v0) :: t) k0 v = (k0, v) :: t := by simp [dictSet]
      rw [hd]
      simp only [List.map_cons, List.mem_cons]
      tauto
    · simp only [dictSet, if_neg h0, List.map_cons, List.mem_cons, ih]
      tauto

theorem nodup_keys_dictSet {α : Type} :
    ∀ (m : List (ℕ × α)) (k : ℕ) (v : α), (m.map Prod.fst).Nodup →
      ((dictSet m k v).map Prod.fst).Nodup := by
  intro m
  induction m with
  | nil => intro k v _; simp [dictSet]
  | cons p t ih =>
    intro k v h
    obtain ⟨k0, v0⟩ := p
    rw [List.map_cons, List.nodup_cons] at h
    by_cases h0 : k0 = k
    · subst h0
      have hd : dictSet ((k0, v0) :: t) k0 v = (k0, v) :: t := by simp [dictSet]
      rw [hd, List.map_cons, List.nodup_cons]
      exact h
    · simp only [dictSet, if_neg h0, List.map_cons, List.nodup_cons]
      refine ⟨?_, ih k v h.2⟩
      intro hmem
      rcases (mem_keys_dictSet t k k0 v).mp hmem with h1 | h1
      · exact h0 h1
      · exact h.1 h1

/-! ### The found map: last detection wins, keys are required and present -/

theorem dictGet_foldl_foundStep {α : Type} :
    ∀ (dets : List (ℕ × Corners α)) (m : List (ℕ × Corners α)) (i : ℕ),
      i ∈ requiredIds →
      dictGet (dets.foldl foundStep m) i =
        (((dets.filter (fun d => d.1 == i)).getLast?).map Prod.snd).or
          (dictGet m i) := by
  intro dets
  induction dets with
  | nil => intro m i _; simp [Option.or]
  | cons d t ih =>
    intro m i hi
    obtain ⟨di, dc⟩ := d
    rw [List.foldl_cons]
    by_cases hdi : di = i
    · subst hdi
      have hstep : foundStep m (di, dc) = dictSet m di dc := if_pos hi
      rw [hstep, ih _ di hi, dictGet_set_self]
      have hfil : (((di, dc)) :: t).filter (fun d => d.1 == di)
          = (di, dc) :: t.filter (fun d => d.1 == di) := by
        simp [List.filter_cons]
      rw [hfil]
      cases hft : t.filter (fun d => d.1 == di) with
      | nil => simp [Option.or]
      | cons e es =>
        rw [List.getLast?_cons_cons]
        have hsome : ∃ z, (e :: es).getLast? = some z := by
          cases h : (e :: es).getLast? with
          | none => exact absurd (List.getLast?_eq_none_iff.mp h) (by simp)
          | some z => exact ⟨z, rfl⟩
        obtain ⟨z, hz⟩ := hsome
        rw [hz]
        simp [Option.or]
    · have hfil : (((di, dc)) :: t).filter (fun d => d.1 == i)
          = t.filter (fun d => d.1 == i) := by
        simp [List.filter_cons, hdi]
      rw [hfil]
      by_cases hreq : di ∈ requiredIds
      · have hstep : foundStep m (di, dc) = dictSet m di dc := if_pos hreq
        rw [hstep, ih _ i hi, dictGet_set_ne m i di dc (fun h => hdi h.symm)]
      · have hstep : foundStep m (di, dc) = m := if_neg hreq
        rw [hstep, ih _ i hi]

theorem nodup_keys_foldl {α : Type} :
    ∀ (dets : List (ℕ × Corners α)) (m : List (ℕ × Corners α)),
      (m.map Prod.fst).Nodup → (((dets.foldl foundStep m).map Prod.fst)).Nodup := by
  intro dets
  induction dets with
  | nil => intro m h; exact h
  | cons d t ih =>
    intro m h
    rw [List.foldl_cons]
    apply ih
    rw [foundStep]
    by_cases hreq : d.1 ∈ requiredIds
    · rw [if_pos hreq]; exact nodup_keys_dictSet m d.1 d.2 h
    · rw [if_neg hreq]; exact h

theorem mem_keys_foldl {α : Type} :
    ∀ (dets : List (ℕ × Corners α)) (m : List (ℕ × Corners α)) (k : ℕ),
      k ∈ (dets.foldl foundStep m).map Prod.fst →
      k ∈ m.map Prod.fst ∨ (k ∈ requiredIds ∧ ∃ c, (k, c) ∈ dets) := by
  intro dets
  induction dets with
  | nil => intro m k h; exact Or.inl h
  | cons d t ih =>
    intro m k h
    rw [List.foldl_cons] at h
    rcases ih _ k h with h1 | ⟨hreq, c, hc⟩
    · rw [foundStep] at h1
      by_cases hr : d.1 ∈ requiredIds
      · rw [if_pos hr] at h1
        rcases (mem_keys_dictSet m d.1 k d.2).mp h1 with h2 | h2
        · subst h2
          exact Or.inr ⟨hr, d.2, by simp⟩
        · exact Or.inl h2
      · rw [if_neg hr] at h1
        exact Or.inl h1
    · exact Or.inr ⟨hreq, c, List.mem_cons_of_mem _ hc⟩

theorem keys_subset_foundRequired {α : Type} (dets : List (ℕ × Corners α)) :
    ((buildFoundMap dets).map Prod.fst) ⊆ foundRequired dets := by
  intro k hk
  rcases mem_keys_foldl dets [] k hk with h | ⟨hreq, c, hc⟩
  · simp at h
  · rw [foundRequired, List.mem_filter]
    refine ⟨hreq, ?_⟩
    rw [List.any_eq_true]
    exact ⟨(k, c), hc, by simp⟩

/-! ## Claim C2: duplicate detections of a required id -/

/-- C2 (corrected): when a required marker id is detected more than once,
the corner set kept in the found map — and hence used for the homography —
is the one from the last-seen detection, not the first-seen one; each later
detection silently overwrites the earlier entry (no warning is issued and
no failure occurs). -/
theorem C2_last_seen_wins {α : Type} (dets : List (ℕ × Corners α)) (i : ℕ)
    (hi : i ∈ requiredIds) :
    dictGet (buildFoundMap dets) i = lastDetection dets i := by
  rw [buildFoundMap, dictGet_foldl_foundStep dets [] i hi, lastDetection]
  cases ((dets.filter (fun d => d.1 == i)).getLast?).map Prod.snd <;>
    simp [Option.or, dictGet]

/-- Sample corner sets for duplicate-detection inputs. -/
def cornersA : Corners ℕ := ⟨1, 2, 3, 4⟩

def cornersB : Corners ℕ := ⟨5, 6, 7, 8⟩

/-- A detection list in which required id 0 is detected twice. -/
def dupDets : List (ℕ × Corners ℕ) :=
  [(0, cornersA), (0, cornersB), (1, cornersA), (2, cornersA), (3, cornersA)]

/-- C2 witness: in a list where id 2 occurs twice, the found map holds the
last detection of id 2. -/
theorem C2_last_seen_wins_witness :
    (2 ∈ requiredIds) ∧
    dictGet (buildFoundMap [(2, cornersA), (2, cornersB)]) 2 =
      lastDetection [(2, cornersA), (2, cornersB)] 2 :=
  ⟨by decide, C2_last_seen_wins [(2, cornersA), (2, cornersB)] 2 (by decide)⟩

/-- C2 counterexample: with id 0 detected twice (corners `cornersA` then
`cornersB`), the marker stage succeeds and its selected top-left source
point is `cornersB.c0 = 5` from the second (last-seen) detection — not
`cornersA.c0 = 1` from the first-seen one as the claim states. -/
theorem C2_first_seen_counterexample :
    markerStage dupDets = Except.ok ⟨5, 2, 3, 4⟩ ∧
    markerStage dupDets ≠ Except.ok ⟨1, 2, 3, 4⟩ := by
  have h : markerStage dupDets = Except.ok ⟨5, 2, 3, 4⟩ := rfl
  refine ⟨h, ?_⟩
  rw [h]
  intro hc
  simp at hc

/-! ## Claim C5: fewer than 4 required ids -/

/-- C5 (confirmed): whenever fewer than 4 of the required ids 0,1,2,3 are
present among the detections, the pipeline stops at the marker stage with
an insufficient-markers error — carrying either the total detection count
or the list of required ids found — and no output table is produced; the
downstream stages (rectification, calibration, particle analysis) are never
invoked on any input. -/
theorem C5_insufficient_markers {α β : Type} (downstream : SrcPts α → List β)
    (dets : List (ℕ × Corners α))
    (hfew : (foundRequired dets).length < 4) :
    (pipelineTable downstream dets =
        Except.error (.tooFewMarkers dets.length) ∨
      pipelineTable downstream dets =
        Except.error (.missingRequiredIds ((buildFoundMap dets).map Prod.fst))) ∧
    ∀ table, pipelineTable downstream dets ≠ Except.ok table := by
  have hlen : (buildFoundMap dets).length < 4 := by
    have hnd : ((buildFoundMap dets).map Prod.fst).Nodup :=
      nodup_keys_foldl dets [] (by simp)
    have hle := (List.subperm_of_subset hnd (keys_subset_foundRequired dets)).length_le
    rw [List.length_map] at hle
    omega
  have herr : pipelineTable downstream dets =
        Except.error (.tooFewMarkers dets.length) ∨
      pipelineTable downstream dets =
        Except.error (.missingRequiredIds ((buildFoundMap dets).map Prod.fst)) := by
    by_cases hn : dets.length < 4
    · left
      simp [pipelineTable, markerStage, hn, Except.map]
    · right
      simp [pipelineTable, markerStage, hn, hlen, Except.map]
  refine ⟨herr, ?_⟩
  intro table hok
  rcases herr with h | h <;> rw [h] at hok <;> exact Except.noConfusion hok

/-- C5 witness: a frame with 4 detections of which only ids 0 and 1 are
required; the pipeline produces no output table. -/
theorem C5_insufficient_markers_witness :
    (foundRequired [(0, cornersA), (1, cornersA), (7, cornersA), (9, cornersA)]).length < 4 ∧
    ∀ table, pipelineTable (fun _ => ([] : List ℕ))
      [(0, cornersA), (1, cornersA), (7, cornersA), (9, cornersA)] ≠ Except.ok table :=
  ⟨by decide,
    (C5_insufficient_markers (fun _ => ([] : List ℕ)) _ (by decide)).2⟩

/-! ## Claim C6: degenerate source points -/

/-- Cross product used to detect collinearity of three points. -/
def cross (o a b : ℚ × ℚ) : ℚ :=
  (a.1 - o.1) * (b.2 - o.2) - (a.2 - o.2) * (b.1 - o.1)

/-- Degenerate source-point configuration in the sense of the spec:
duplicate points or all four collinear. -/
def degenerateSrcPts (p : SrcPts (ℚ × ℚ)) : Prop :=
  p.tl = p.tr ∨ p.tl = p.br ∨ p.tl = p.bl ∨ p.tr = p.br ∨ p.tr = p.bl ∨
    p.br = p.bl ∨ (cross p.tl p.tr p.br = 0 ∧ cross p.tl p.tr p.bl = 0)

/-- The rectification step as written in the source:
`M = cv2.getPerspectiveTransform(src_pts, dst_pts)` immediately followed by
`warped = cv2.warpPerspective(img, M, ...)`, with no validity check on the
source points and no error path of any kind between the two calls. -/
def rectifyStage {α H W : Type} (getPerspectiveTransform : SrcPts α → H)
    (warpPerspective : H → W) (src : SrcPts α) :
    Except InsufficientMarkersError W :=
  Except.ok (warpPerspective (getPerspectiveTransform src))

/-- Marker stage followed by rectification. -/
def pipelineToWarp {α H W : Type} (getPerspectiveTransform : SrcPts α → H)
    (warpPerspective : H → W) (dets : List (ℕ × Corners α)) :
    Except InsufficientMarkersError W :=
  (markerStage dets).bind (rectifyStage getPerspectiveTransform warpPerspective)

/-- A detection list whose four selected outer corners all coincide at the
origin: a maximally degenerate (duplicate, hence also collinear) source
configuration. -/
def degenDets : List (ℕ × Corners (ℚ × ℚ)) :=
  [(0, ⟨(0, 0), (0, 0), (0, 0), (0, 0)⟩), (1, ⟨(0, 0), (0, 0), (0, 0), (0, 0)⟩),
   (2, ⟨(0, 0), (0, 0), (0, 0), (0, 0)⟩), (3, ⟨(0, 0), (0, 0), (0, 0), (0, 0)⟩)]

/-- The degenerate source points selected from `degenDets`. -/
def degenSrc : SrcPts (ℚ × ℚ) := ⟨(0, 0), (0, 0), (0, 0), (0, 0)⟩

/-- C6 (code_bug): the source performs no degeneracy check at all. On a
frame whose four selected source points are degenerate (all equal), the
marker stage succeeds, the perspective transform is computed from the
degenerate points and the warp proceeds; no `DegenerateHomographyError` (or
error of any kind) is raised — contradicting the spec, which requires the
degenerate configuration to be detected and reported as fatal before
warping. -/
theorem C6_no_degeneracy_check :
    degenerateSrcPts degenSrc ∧
    markerStage degenDets = Except.ok degenSrc ∧
    pipelineToWarp (fun s => s) (fun s => s) degenDets = Except.ok degenSrc :=
  ⟨Or.inl rfl, rfl, rfl⟩

/-! ## Particle segmentation

Coarse-blob mode (`detect_beans` in `test_bean_cv.py`) works on contours
extracted by `cv2.findContours`; fine-dot mode (`detect_all_dots` in
`test_cv.py`) works on the statistics rows of
`cv2.connectedComponentsWithStats` (background row already dropped).  Both
extractors are OpenCV primitives; the loops filtering their output are the
repository's code and are transcribed below.
-/

/-- Shoelace sum of the closed polygon through the contour points, with
`first` the starting vertex (closing edge back to it). -/
def shoelaceAux (first : ℚ × ℚ) : List (ℚ × ℚ) → ℚ
  | [] => 0
  | [p] => p.1 * first.2 - first.1 * p.2
  | p :: q :: t => (p.1 * q.2 - q.1 * p.2) + shoelaceAux first (q :: t)

/-- `cv2.contourArea`: half the absolute shoelace sum of the contour
polygon. -/
def contourArea (cnt : List (ℚ × ℚ)) : ℚ :=
  match cnt with
  | [] => 0
  | p :: _ => |shoelaceAux p cnt| / 2

/-- The rotated rect returned by `cv2.fitEllipse`:
`((xe, ye), (MA, ma), angle)`. -/
structure Ellipse where
  xe : ℚ
  ye : ℚ
  MA : ℚ
  ma : ℚ
  angle : ℚ
deriving DecidableEq

/-- A bean record appended by `detect_beans`:
`{'contour': cnt, 'ellipse': ellipse, 'area_px': area}`. -/
structure BeanRec where
  contour : List (ℚ × ℚ)
  ellipse : Ellipse
  area_px : ℚ
deriving DecidableEq

/-- The record built for a contour once it passes both gates. -/
def beanRecOf (fitEllipse : List (ℚ × ℚ) → Ellipse) (cnt : List (ℚ × ℚ)) : BeanRec :=
  ⟨cnt, fitEllipse cnt, contourArea cnt⟩

/-- The contour loop of `detect_beans`: skip a contour whose area is below
`min_area_px`; fit an ellipse and append a record when the contour has at
least 5 points; otherwise fall through without appending anything. -/
def detect_beans (fitEllipse : List (ℚ × ℚ) → Ellipse)
    (contours : List (List (ℚ × ℚ))) (min_area_px : ℚ) : List BeanRec :=
  contours.foldl (fun beans cnt =>
    let area := contourArea cnt
    if area < min_area_px then beans
    else if 5 ≤ cnt.length then beans ++ [beanRecOf fitEllipse cnt]
    else beans) []

/-- A statistics row of `cv2.connectedComponentsWithStats` for one
foreground component: pixel area, bounding box, centroid. -/
structure DotStat where
  area : ℕ
  x : ℕ
  y : ℕ
  w : ℕ
  h : ℕ
  cx : ℚ
  cy : ℚ
deriving DecidableEq

/-- A dot record appended by `detect_all_dots`:
`{"area_px": area, "bbox": (x, y, w, h), "centroid": (cx, cy)}`. -/
structure DotRec where
  area_px : ℕ
  x : ℕ
  y : ℕ
  w : ℕ
  h : ℕ
  cx : ℚ
  cy : ℚ
deriving DecidableEq

/-- The record built from one component's statistics row. -/
def dotRecOf (s : DotStat) : DotRec := ⟨s.area, s.x, s.y, s.w, s.h, s.cx, s.cy⟩

/-- `min_area = 1 if keep_single_pixels else 2`. -/
def minAreaDots (keep_single_pixels : Bool) : ℕ :=
  if keep_single_pixels then 1 else 2

/-- The component loop of `detect_all_dots`: skip a component whose area is
below the minimum, append a record for every other component. -/
def detect_all_dots (stats : List DotStat) (keep_single_pixels : Bool) : List DotRec :=
  stats.foldl (fun dots s =>
    if s.area < minAreaDots keep_single_pixels then dots
    else dots ++ [dotRecOf s]) []

/-! ### Output characterizations of the two segmentation loops -/

theorem detect_beans_go (fitEllipse : List (ℚ × ℚ) → Ellipse) (min_area_px : ℚ) :
    ∀ (contours : List (List (ℚ × ℚ))) (init : List BeanRec),
      contours.foldl (fun beans cnt =>
        let area := contourArea cnt
        if area < min_area_px then beans
        else if 5 ≤ cnt.length then beans ++ [beanRecOf fitEllipse cnt]
        else beans) init =
      init ++ (contours.filter (fun cnt =>
        !decide (contourArea cnt < min_area_px) && decide (5 ≤ cnt.length))).map
          (beanRecOf fitEllipse) := by
  intro contours
  induction contours with
  | nil => intro init; simp
  | cons c t ih =>
    intro init
    rw [List.foldl_cons, List.filter_cons]
    by_cases h1 : contourArea c < min_area_px
    · simp [h1, ih]
    · by_cases h2 : 5 ≤ c.length
      · simp [h1, h2, ih, List.append_assoc]
      · simp [h1, h2, ih]

theorem detect_beans_eq (fitEllipse : List (ℚ × ℚ) → Ellipse)
    (contours : List (List (ℚ × ℚ))) (min_area_px : ℚ) :
    detect_beans fitEllipse contours min_area_px =
      (contours.filter (fun cnt =>
        !decide (contourArea cnt < min_area_px) && decide (5 ≤ cnt.length))).map
          (beanRecOf fitEllipse) := by
  rw [detect_beans, detect_beans_go]
  rfl

theorem detect_all_dots_go (keep_single_pixels : Bool) :
    ∀ (stats : List DotStat) (init : List DotRec),
      stats.foldl (fun dots s =>
        if s.area < minAreaDots keep_single_pixels then dots
        else dots ++ [dotRecOf s]) init =
      init ++ (stats.filter (fun s =>
        !decide (s.area < minAreaDots keep_single_pixels))).map dotRecOf := by
  intro stats
  induction stats with
  | nil => intro init; simp
  | cons s t ih =>
    intro init
    rw [List.foldl_cons, List.filter_cons]
    by_cases h1 : s.area < minAreaDots keep_single_pixels
    · simp [h1, ih]
    · simp [h1, ih, List.append_assoc]

theorem detect_all_dots_eq (stats : List DotStat) (keep_single_pixels : Bool) :
    detect_all_dots stats keep_single_pixels =
      (stats.filter (fun s =>
        !decide (s.area < minAreaDots keep_single_pixels))).map dotRecOf := by
  rw [detect_all_dots, detect_all_dots_go]
  rfl

/-! ## Claim C3: which surviving regions yield records -/

/-- C3 (corrected): in coarse-blob mode the output records are exactly the
contours that pass the area filter AND have at least 5 boundary points,
each carrying the fitted ellipse; a region surviving the area filter with
fewer than 5 boundary points yields no record at all (no approximation is
attempted in this mode).  In fine-dot mode every region surviving the area
filter yields a record and no ellipse is ever fitted (its axes are
approximated downstream from area and bounding box). -/
theorem C3_region_records (fitEllipse : List (ℚ × ℚ) → Ellipse)
    (contours : List (List (ℚ × ℚ))) (min_area_px : ℚ)
    (stats : List DotStat) (keep_single_pixels : Bool) :
    detect_beans fitEllipse contours min_area_px =
      (contours.filter (fun cnt =>
        !decide (contourArea cnt < min_area_px) && decide (5 ≤ cnt.length))).map
          (beanRecOf fitEllipse) ∧
    detect_all_dots stats keep_single_pixels =
      (stats.filter (fun s =>
        !decide (s.area < minAreaDots keep_single_pixels))).map dotRecOf :=
  ⟨detect_beans_eq fitEllipse contours min_area_px,
   detect_all_dots_eq stats keep_single_pixels⟩

/-- Stand-in for `cv2.fitEllipse` in concrete runs of the loops. -/
def dummyFitEllipse : List (ℚ × ℚ) → Ellipse := fun _ => ⟨0, 0, 0, 0, 0⟩

/-- A square contour (4 boundary points) of area 400. -/
def sqContour : List (ℚ × ℚ) := [(0, 0), (20, 0), (20, 20), (0, 20)]

/-- C3 counterexample: the square contour has area 400, far above the
minimum 50, so it survives the area filter; yet having only 4 boundary
points, coarse-blob mode emits no particle record for it — contradicting
the claim that every surviving region yields a record with axis lengths
(an approximation for regions with fewer than 5 boundary points). -/
theorem C3_survivor_without_record_counterexample :
    (50 : ℚ) ≤ contourArea sqContour ∧ sqContour.length < 5 ∧
    detect_beans dummyFitEllipse [sqContour] 50 = [] := by
  have harea : contourArea sqContour = 400 := by
    norm_num [contourArea, sqContour, shoelaceAux]
  refine ⟨by rw [harea]; norm_num, by norm_num [sqContour], ?_⟩
  rw [detect_beans_eq]
  have hcond : (!decide (contourArea sqContour < 50) &&
      decide (5 ≤ sqContour.length)) = false := by
    simp [harea, sqContour]
  simp [List.filter_cons, hcond]

/-! ## Claim C4: the area-filter boundary -/

/-- C4 (corrected): in both modes every emitted record has area at least
the configured minimum (a region one pixel below it is discarded), and a
region with area exactly at the minimum is retained — unconditionally in
fine-dot mode, but in coarse-blob mode only when it also has at least 5
boundary points; an at-minimum region with fewer boundary points is dropped
(see the counterexample). -/
theorem C4_area_filter_boundary :
    (∀ (fitEllipse : List (ℚ × ℚ) → Ellipse) (contours : List (List (ℚ × ℚ)))
        (min_area_px : ℚ) (cnt : List (ℚ × ℚ)), cnt ∈ contours →
        min_area_px ≤ contourArea cnt → 5 ≤ cnt.length →
        beanRecOf fitEllipse cnt ∈ detect_beans fitEllipse contours min_area_px) ∧
    (∀ (fitEllipse : List (ℚ × ℚ) → Ellipse) (contours : List (List (ℚ × ℚ)))
        (min_area_px : ℚ) (r : BeanRec),
        r ∈ detect_beans fitEllipse contours min_area_px →
        min_area_px ≤ r.area_px) ∧
    (∀ (stats : List DotStat) (keep : Bool) (s : DotStat), s ∈ stats →
        minAreaDots keep ≤ s.area → dotRecOf s ∈ detect_all_dots stats keep) ∧
    (∀ (stats : List DotStat) (keep : Bool) (r : DotRec),
        r ∈ detect_all_dots stats keep → minAreaDots keep ≤ r.area_px) := by
  refine ⟨?_, ?_, ?_, ?_⟩
  · intro fitEllipse contours min_area_px cnt hmem harea hlen
    rw [detect_beans_eq]
    apply List.mem_map_of_mem
    rw [List.mem_filter]
    exact ⟨hmem, by simp [not_lt.mpr harea, hlen]⟩
  · intro fitEllipse contours min_area_px r hr
    rw [detect_beans_eq] at hr
    obtain ⟨cnt, hcnt, rfl⟩ := List.mem_map.mp hr
    rw [List.mem_filter] at hcnt
    have hc := hcnt.2
    simp only [Bool.and_eq_true, Bool.not_eq_true', decide_eq_false_iff_not] at hc
    simpa [beanRecOf] using not_lt.mp hc.1
  · intro stats keep s hmem harea
    rw [detect_all_dots_eq]
    apply List.mem_map_of_mem
    rw [List.mem_filter]
    exact ⟨hmem, by simp [not_lt.mpr harea]⟩
  · intro stats keep r hr
    rw [detect_all_dots_eq] at hr
    obtain ⟨s, hs, rfl⟩ := List.mem_map.mp hr
    rw [List.mem_filter] at hs
    have hc := hs.2
    simp only [Bool.not_eq_true', decide_eq_false_iff_not] at hc
    simpa [dotRecOf] using not_lt.mp hc

/-- A 5-point contour of area exactly 50. -/
def pentContour : List (ℚ × ℚ) := [(0, 0), (10, 0), (10, 5), (5, 5), (0, 5)]

/-- A component statistics row with area exactly at the fine-dot minimum
for `keep_single_pixels = False`. -/
def oneDotStat : DotStat := ⟨2, 0, 0, 2, 1, 0, 0⟩

/-- C4 witness: a 5-point contour of area exactly the coarse minimum 50 is
retained, and a component of area exactly the fine minimum 2 is retained. -/
theorem C4_area_filter_boundary_witness :
    (contourArea pentContour = 50 ∧
      beanRecOf dummyFitEllipse pentContour ∈
        detect_beans dummyFitEllipse [pentContour] 50) ∧
    (minAreaDots false = 2 ∧
      dotRecOf oneDotStat ∈ detect_all_dots [oneDotStat] false) := by
  have harea : contourArea pentContour = 50 := by
    norm_num [contourArea, pentContour, shoelaceAux]
  constructor
  · exact ⟨harea,
      C4_area_filter_boundary.1 dummyFitEllipse [pentContour] 50 pentContour
        (by simp) (le_of_eq harea.symm) (by norm_num [pentContour])⟩
  · exact ⟨rfl,
      C4_area_filter_boundary.2.2.1 [oneDotStat] false oneDotStat
        (by simp) (by decide)⟩

/-- A 4-point rectangle contour of area exactly 50. -/
def rectContour : List (ℚ × ℚ) := [(0, 0), (10, 0), (10, 5), (0, 5)]

/-- C4 counterexample: a region with area exactly at the configured minimum
50 but only 4 boundary points is NOT retained in coarse-blob mode — the
at-minimum retention stated by the claim fails there. -/
theorem C4_at_minimum_dropped_counterexample :
    contourArea rectContour = 50 ∧
    detect_beans dummyFitEllipse [rectContour] 50 = [] := by
  have harea : contourArea rectContour = 50 := by
    norm_num [contourArea, rectContour, shoelaceAux]
  refine ⟨harea, ?_⟩
  rw [detect_beans_eq]
  have hcond : (!decide (contourArea rectContour < 50) &&
      decide (5 ≤ rectContour.length)) = false := by
    simp [rectContour]
  simp [List.filter_cons, hcond]

/-! ## Measurement: axis lengths in millimetres

`np.pi` and `np.sqrt` are parameters of the embedded measurement code.
-/

/-- Coarse-blob axis measurement:
`major_mm = max(MA, ma) / SCALE * scale_correction`,
`minor_mm = min(MA, ma) / SCALE * scale_correction`. -/
def beanAxes (scale scale_correction MA ma : ℚ) : ℚ × ℚ :=
  (max MA ma / scale * scale_correction, min MA ma / scale * scale_correction)

/-- Fine-dot axis measurement for one dot record: a single pixel is
approximated as a tiny circle (`sqrt(area/pi) * 2`), a larger component by
its bounding-box diagonal for the major axis and `area / (pi * diag / 2)`
for the minor axis (falling back to the major axis when the diagonal is not
positive). -/
def dotAxes (np_pi : ℚ) (np_sqrt : ℚ → ℚ) (scale scale_correction : ℚ)
    (d : DotRec) : ℚ × ℚ :=
  if d.area_px = 1 then
    let s := np_sqrt ((d.area_px : ℚ) / np_pi) * 2 / scale * scale_correction
    (s, s)
  else
    let diag := np_sqrt ((d.w : ℚ) * d.w + (d.h : ℚ) * d.h)
    let major := diag / scale * scale_correction
    let minor := if 0 < diag then
      ((d.area_px : ℚ) / (np_pi * diag / 2)) / scale * scale_correction
    else major
    (major, minor)

/-! ## Claim C10: minor axis never exceeds major axis -/

/-- C10 (confirmed): for every emitted record, the reported minor axis does
not exceed the major axis. In coarse-blob mode this is max/min of the
fitted ellipse axes scaled by a nonnegative factor.  In fine-dot mode a
single-pixel record has equal axes, and a larger record satisfies
`area / (pi * diag / 2) <= diag` because the component's pixel area is at
most `w * h <= (w^2 + h^2) / 2 = diag^2 / 2` and `pi >= 1`; the hypotheses
state the defining properties of the external `np.sqrt` value at the
bounding box in question. -/
theorem C10_minor_le_major (scale scale_correction MA ma np_pi : ℚ)
    (np_sqrt : ℚ → ℚ) (d : DotRec)
    (hscale : 0 < scale) (hcorr : 0 ≤ scale_correction) :
    ((beanAxes scale scale_correction MA ma).2 ≤
      (beanAxes scale scale_correction MA ma).1) ∧
    (d.area_px = 1 →
      (dotAxes np_pi np_sqrt scale scale_correction d).2 =
        (dotAxes np_pi np_sqrt scale scale_correction d).1) ∧
    (1 ≤ np_pi → d.area_px ≠ 1 → (d.area_px : ℚ) ≤ (d.w : ℚ) * (d.h : ℚ) →
      np_sqrt ((d.w : ℚ) * d.w + (d.h : ℚ) * d.h) *
          np_sqrt ((d.w : ℚ) * d.w + (d.h : ℚ) * d.h) =
        (d.w : ℚ) * d.w + (d.h : ℚ) * d.h →
      (dotAxes np_pi np_sqrt scale scale_correction d).2 ≤
        (dotAxes np_pi np_sqrt scale scale_correction d).1) := by
  have hsinv : (0 : ℚ) ≤ scale⁻¹ := inv_nonneg.mpr (le_of_lt hscale)
  refine ⟨?_, ?_, ?_⟩
  · rw [beanAxes]
    dsimp only
    rw [div_eq_mul_inv, div_eq_mul_inv]
    exact mul_le_mul_of_nonneg_right
      (mul_le_mul_of_nonneg_right min_le_max hsinv) hcorr
  · intro h1
    simp [dotAxes, h1]
  · intro hpi hne harea hsq
    rw [dotAxes, if_neg hne]
    dsimp only
    set t := np_sqrt ((d.w : ℚ) * d.w + (d.h : ℚ) * d.h) with ht
    by_cases hpos : 0 < t
    · rw [if_pos hpos]
      have hA : ((d.area_px : ℚ)) / (np_pi * t / 2) ≤ t := by
        have hden : 0 < np_pi * t / 2 := by positivity
        rw [div_le_iff₀ hden]
        have h2A : 2 * (d.area_px : ℚ) ≤ (d.w : ℚ) * d.w + (d.h : ℚ) * d.h := by
          nlinarith [sq_nonneg ((d.w : ℚ) - (d.h : ℚ))]
        have hW0 : (0 : ℚ) ≤ (d.w : ℚ) * d.w + (d.h : ℚ) * d.h := by positivity
        nlinarith [hsq]
      rw [div_eq_mul_inv, div_eq_mul_inv]
      exact mul_le_mul_of_nonneg_right
        (mul_le_mul_of_nonneg_right hA hsinv) hcorr
    · rw [if_neg hpos]

/-- The `np.sqrt` values needed for the witness bounding box (3 by 4). -/
def witSqrt : ℚ → ℚ := fun q => if q = 25 then 5 else 0

/-- A 6-pixel component in a 3-by-4 bounding box. -/
def witDot : DotRec := ⟨6, 0, 0, 3, 4, 0, 0⟩

/-- C10 witness: concrete measurements in both modes. -/
theorem C10_minor_le_major_witness :
    ((beanAxes 20 1 8 5).2 ≤ (beanAxes 20 1 8 5).1) ∧
    ((dotAxes 3 witSqrt 20 1 witDot).2 ≤ (dotAxes 3 witSqrt 20 1 witDot).1) := by
  have h := C10_minor_le_major 20 1 8 5 3 witSqrt witDot (by norm_num) (by norm_num)
  refine ⟨h.1, h.2.2 (by norm_num) (by decide) ?_ ?_⟩
  · show ((witDot.area_px : ℚ)) ≤ (witDot.w : ℚ) * (witDot.h : ℚ)
    norm_num [witDot]
  · norm_num [witSqrt, witDot]

/-! ## Photometric calibration: white balance and calibrated color -/

/-- The target neutral gray (`target_neutral = 128.0`). -/
def target_neutral : ℚ := 128

/-- One white-balance factor:
`target_neutral / neutral_obs if neutral_obs > 0 else 1.0`. -/
def wb_factor (neutral_obs : ℚ) : ℚ :=
  if 0 < neutral_obs then target_neutral / neutral_obs else 1

/-- The neutral estimate for one channel: the unweighted average of the
cyan, magenta and yellow patch means on that channel. -/
def neutral_obs (c m y : ℚ) : ℚ := (c + m + y) / 3

/-- The three white-balance factors `(wb_factor_b, wb_factor_g,
wb_factor_r)` computed from the observed CMY patch colors (each a BGR
triple). -/
def wb_gains (c_obs m_obs y_obs : ℚ × ℚ × ℚ) : ℚ × ℚ × ℚ :=
  (wb_factor (neutral_obs c_obs.1 m_obs.1 y_obs.1),
   wb_factor (neutral_obs c_obs.2.1 m_obs.2.1 y_obs.2.1),
   wb_factor (neutral_obs c_obs.2.2 m_obs.2.2 y_obs.2.2))

/-- Calibrated color and luma of one particle. -/
structure ColorOut where
  r : ℚ
  g : ℚ
  b : ℚ
  luma : ℚ
deriving DecidableEq

/-- The per-bean color computation of `test_bean_cv.py`: tone curve first
(`apply_lut`), then white-balance gain clipped to [0, 255], then
`luma = 0.299 * corr_r + 0.587 * corr_g + 0.114 * corr_b`. -/
def beanColor (lut_b lut_g lut_r : ℕ → ℤ) (wb_b wb_g wb_r : ℚ)
    (mean_b mean_g mean_r : ℚ) : ColorOut :=
  let corr_b0 : ℚ := (apply_lut mean_b lut_b : ℤ)
  let corr_g0 : ℚ := (apply_lut mean_g lut_g : ℤ)
  let corr_r0 : ℚ := (apply_lut mean_r lut_r : ℤ)
  let corr_b := clip (corr_b0 * wb_b) 0 255
  let corr_g := clip (corr_g0 * wb_g) 0 255
  let corr_r := clip (corr_r0 * wb_r) 0 255
  ⟨corr_r, corr_g, corr_b,
    0.299 * corr_r + 0.587 * corr_g + 0.114 * corr_b⟩

/-- The per-dot color computation of `test_cv.py`: tone curve only (that
variant computes no white balance), then the same luma formula. -/
def dotColor (lut_b lut_g lut_r : ℕ → ℤ) (mean_b mean_g mean_r : ℚ) : ColorOut :=
  let corr_b : ℚ := (apply_lut mean_b lut_b : ℤ)
  let corr_g : ℚ := (apply_lut mean_g lut_g : ℤ)
  let corr_r : ℚ := (apply_lut mean_r lut_r : ℤ)
  ⟨corr_r, corr_g, corr_b,
    0.299 * corr_r + 0.587 * corr_g + 0.114 * corr_b⟩

/-- The tone curve as a function on raw intensities (lookup in a built
table). -/
def toneCurve (lut : ℕ → ℤ) (v : ℚ) : ℚ := (apply_lut v lut : ℤ)

/-- The calibration order the spec fixes, written from its words: raw mean
color, then per-channel tone curve, then per-channel white-balance gain
with the result clamped to the valid intensity range [0, 255], then
`luma = 0.299 R + 0.587 G + 0.114 B` over the calibrated channels. -/
def specOrderColor (tone_b tone_g tone_r : ℚ → ℚ) (wb_b wb_g wb_r : ℚ)
    (mean_b mean_g mean_r : ℚ) : ColorOut :=
  let cal_b := clip (tone_b mean_b * wb_b) 0 255
  let cal_g := clip (tone_g mean_g * wb_g) 0 255
  let cal_r := clip (tone_r mean_r * wb_r) 0 255
  ⟨cal_r, cal_g, cal_b,
    0.299 * cal_r + 0.587 * cal_g + 0.114 * cal_b⟩

theorem clip_build_lut_mul_one (observed expected : List ℚ) (i : ℕ) :
    clip ((build_lut observed expected i : ℚ) * 1) 0 255 =
      (build_lut observed expected i : ℚ) := by
  have h1 : (build_lut observed expected i : ℚ) ≤ 255 := by
    exact_mod_cast toU8_le (np_interp i (sortPairs observed expected))
  have h0 : (0 : ℚ) ≤ (build_lut observed expected i : ℚ) := by
    exact_mod_cast toU8_nonneg (np_interp i (sortPairs observed expected))
  rw [mul_one, clip, min_eq_left h1, max_eq_right h0]

/-! ## Claim C7: order of the color calibration -/

/-- C7 (confirmed): the per-particle calibrated color is computed in
exactly the spec's fixed order — raw mean color, then per-channel tone
curve, then per-channel white-balance gain clamped to [0, 255] — and luma
is `0.299 R + 0.587 G + 0.114 B` over the calibrated channels.  The
fine-dot variant applies no white balance, and on curves produced by
`build_lut` (whose entries always lie in the byte range) it coincides with
the spec order at unit gains. -/
theorem C7_calibration_order (lut_b lut_g lut_r : ℕ → ℤ)
    (wb_b wb_g wb_r mean_b mean_g mean_r : ℚ)
    (obs_b exp_b obs_g exp_g obs_r exp_r : List ℚ) :
    beanColor lut_b lut_g lut_r wb_b wb_g wb_r mean_b mean_g mean_r =
      specOrderColor (toneCurve lut_b) (toneCurve lut_g) (toneCurve lut_r)
        wb_b wb_g wb_r mean_b mean_g mean_r ∧
    (beanColor lut_b lut_g lut_r wb_b wb_g wb_r mean_b mean_g mean_r).luma =
      0.299 * (beanColor lut_b lut_g lut_r wb_b wb_g wb_r mean_b mean_g mean_r).r +
      0.587 * (beanColor lut_b lut_g lut_r wb_b wb_g wb_r mean_b mean_g mean_r).g +
      0.114 * (beanColor lut_b lut_g lut_r wb_b wb_g wb_r mean_b mean_g mean_r).b ∧
    dotColor (build_lut obs_b exp_b) (build_lut obs_g exp_g) (build_lut obs_r exp_r)
        mean_b mean_g mean_r =
      specOrderColor (toneCurve (build_lut obs_b exp_b))
        (toneCurve (build_lut obs_g exp_g)) (toneCurve (build_lut obs_r exp_r))
        1 1 1 mean_b mean_g mean_r := by
  refine ⟨rfl, rfl, ?_⟩
  rw [dotColor, specOrderColor]
  simp only [toneCurve, apply_lut]
  rw [clip_build_lut_mul_one obs_b exp_b, clip_build_lut_mul_one obs_g exp_g,
    clip_build_lut_mul_one obs_r exp_r]

/-! ## Claim C8: white-balance gains -/

/-- C8 (confirmed): each white-balance factor is exactly 1 when the
observed neutral estimate is non-positive and `target_neutral / estimate`
when it is positive; in all cases all three gains are positive scalars. -/
theorem C8_wb_gains (c_obs m_obs y_obs : ℚ × ℚ × ℚ) :
    (0 < (wb_gains c_obs m_obs y_obs).1 ∧
      0 < (wb_gains c_obs m_obs y_obs).2.1 ∧
      0 < (wb_gains c_obs m_obs y_obs).2.2) ∧
    (∀ n : ℚ, n ≤ 0 → wb_factor n = 1) ∧
    (∀ n : ℚ, 0 < n → wb_factor n = target_neutral / n) := by
  have hpos : ∀ n : ℚ, 0 < wb_factor n := by
    intro n
    rw [wb_factor]
    by_cases h : 0 < n
    · rw [if_pos h]
      exact div_pos (by norm_num [target_neutral]) h
    · rw [if_neg h]
      norm_num
  refine ⟨⟨hpos _, hpos _, hpos _⟩, ?_, ?_⟩
  · intro n hn
    rw [wb_factor, if_neg (not_lt.mpr hn)]
  · intro n hn
    rw [wb_factor, if_pos hn]

/-- C8 witness: concrete gains — a positive gain from positive neutral
estimates, the unit gain at a zero estimate, and the quotient form at a
positive estimate. -/
theorem C8_wb_gains_witness :
    0 < (wb_gains (30, 60, 90) (60, 90, 120) (90, 120, 30)).1 ∧
    wb_factor 0 = 1 ∧
    wb_factor 64 = target_neutral / 64 :=
  ⟨(C8_wb_gains (30, 60, 90) (60, 90, 120) (90, 120, 30)).1.1,
   (C8_wb_gains (30, 60, 90) (60, 90, 120) (90, 120, 30)).2.1 0 (le_refl 0),
   (C8_wb_gains (30, 60, 90) (60, 90, 120) (90, 120, 30)).2.2 64 (by norm_num)⟩

end CoffeeCV
